import Mathlib

set_option autoImplicit false

/-!
Shallow embedding of the Unity AI assistant's indexing / retrieval /
style-analysis core (files `lib/indexing/unity-indexer.ts`,
`lib/rag/rag-engine` + `lib/vector-db/pinecone-client` sections, and the
`FilesystemMCPClient` / `CodeStyleAnalyzer` sources quoted in
`QUICK_START.md`).  JavaScript strings are modelled as `List Char`, numeric
scores as `ℚ`, promise rejection as `Except`, and the external vector store
as an explicit list of stored documents.
-/

namespace UnityAssistant

/-- Strings are modelled as lists of characters. -/
abbrev Str := List Char

/-- The JavaScript whitespace class `\s`, restricted to the ASCII whitespace
characters that can occur in the modelled inputs. -/
def isWsChar (c : Char) : Bool :=
  c = ' ' || c = '\t' || c = '\n' || c = '\r' || c = '\x0b' || c = '\x0c'

/-- JavaScript `String.prototype.trim`: drop whitespace from both ends. -/
def trim (s : Str) : Str :=
  ((s.dropWhile isWsChar).reverse.dropWhile isWsChar).reverse

/-- JavaScript `str.split(sep)` for a single-character separator: the list of
(possibly empty) maximal separator-free segments.  `split` of the empty
string is `[""]`, as in JavaScript. -/
def splitOnChar (sep : Char) : Str → List Str
  | [] => [[]]
  | c :: rest =>
    match splitOnChar sep rest with
    | [] => [[c]]
    | h :: t => if c = sep then [] :: h :: t else (c :: h) :: t

/-- JavaScript `str.endsWith(c)` for a one-character suffix. -/
def endsWithChar (s : Str) (c : Char) : Bool :=
  s.getLast? = some c

/-- The line-processing loop of `CodeStyleAnalyzer.reindent`
(QUICK_START.md 1303-1324): for each line, trim it, decrement the nesting
level if the trimmed line ends in a closing brace (`Math.max(0, · - 1)` is
truncated `Nat` subtraction), emit the line indented by `level * spaces`
spaces, and increment the level afterwards if the trimmed line ends in an
opening brace. -/
def reindentLines (spaces : Nat) : List Str → Nat → List Str
  | [], _ => []
  | line :: rest, indentLevel =>
    let trimmed := trim line
    let level1 := if endsWithChar trimmed '}' then indentLevel - 1 else indentLevel
    let indent := List.replicate (level1 * spaces) ' '
    let level2 := if endsWithChar trimmed '{' then level1 + 1 else level1
    (indent ++ trimmed) :: reindentLines spaces rest level2

/-- `CodeStyleAnalyzer.reindent(code, spaces)`: split into lines, re-emit
each line at the tracked nesting depth, join with newlines. -/
def reindent (code : Str) (spaces : Nat) : Str :=
  List.intercalate ['\n'] (reindentLines spaces (splitOnChar '\n' code) 0)

theorem trim_sublist (s : Str) : (trim s).Sublist s := by
  have h1 : (s.dropWhile isWsChar).Sublist s := List.dropWhile_sublist _
  have h2 : ((s.dropWhile isWsChar).reverse.dropWhile isWsChar).Sublist
      (s.dropWhile isWsChar).reverse := List.dropWhile_sublist _
  have h3 := h2.reverse
  simp only [List.reverse_reverse] at h3
  exact h3.trans h1

theorem trim_length_le (s : Str) : (trim s).length ≤ s.length :=
  (trim_sublist s).length_le

theorem not_mem_trim {c : Char} {s : Str} (h : c ∉ s) : c ∉ trim s :=
  fun hmem => h ((trim_sublist s).subset hmem)

theorem splitOnChar_cons (sep c : Char) (rest : Str) :
    splitOnChar sep (c :: rest)
      = match splitOnChar sep rest with
        | [] => [[c]]
        | h :: t => if c = sep then [] :: h :: t else (c :: h) :: t := rfl

theorem splitOnChar_ne_nil (sep : Char) (s : Str) : splitOnChar sep s ≠ [] := by
  cases s with
  | nil => simp [splitOnChar]
  | cons c rest =>
    rw [splitOnChar_cons]
    cases h : splitOnChar sep rest with
    | nil => simp
    | cons h t => by_cases hc : c = sep <;> simp [hc]

theorem not_mem_of_mem_splitOnChar (sep : Char) (s : Str) :
    ∀ l ∈ splitOnChar sep s, sep ∉ l := by
  induction s with
  | nil => intro l hl; simp [splitOnChar] at hl; simp [hl]
  | cons c rest ih =>
    intro l hl
    rw [splitOnChar_cons] at hl
    cases hsplit : splitOnChar sep rest with
    | nil => exact absurd hsplit (splitOnChar_ne_nil sep rest)
    | cons h t =>
      rw [hsplit] at hl
      by_cases hc : c = sep
      · simp [hc] at hl
        rcases hl with hl | hl | hl
        · simp [hl]
        · exact hl ▸ ih h (hsplit ▸ List.mem_cons_self _ _)
        · exact ih l (hsplit ▸ List.mem_cons_of_mem _ hl)
      · simp [hc] at hl
        rcases hl with hl | hl
        · subst hl
          intro hmem
          rcases List.mem_cons.mp hmem with hh | hh
          · exact hc hh.symm
          · exact ih h (hsplit ▸ List.mem_cons_self _ _) hh
        · exact ih l (hsplit ▸ List.mem_cons_of_mem _ hl)

theorem splitOnChar_intercalate (sep : Char) :
    ∀ ls : List Str, ls ≠ [] → (∀ l ∈ ls, sep ∉ l) →
      splitOnChar sep (List.intercalate [sep] ls) = ls := by
  have single : ∀ l : Str, sep ∉ l → splitOnChar sep l = [l] := by
    intro l
    induction l with
    | nil => intro _; rfl
    | cons c rest ih =>
      intro hmem
      have hc : c ≠ sep := fun h => hmem (h ▸ List.mem_cons_self _ _)
      have hrest : sep ∉ rest := fun h => hmem (List.mem_cons_of_mem _ h)
      rw [splitOnChar_cons, ih hrest]
      simp [hc]
  have step : ∀ (l : Str) (s : Str), sep ∉ l →
      splitOnChar sep (l ++ sep :: s) = l :: splitOnChar sep s := by
    intro l
    induction l with
    | nil =>
      intro s _
      simp only [List.nil_append, splitOnChar]
      cases h : splitOnChar sep s with
      | nil => exact absurd h (splitOnChar_ne_nil sep s)
      | cons h t => simp
    | cons c rest ih =>
      intro s hmem
      have hc : c ≠ sep := fun h => hmem (h ▸ List.mem_cons_self _ _)
      have hrest : sep ∉ rest := fun h => hmem (List.mem_cons_of_mem _ h)
      rw [List.cons_append, splitOnChar_cons, ih s hrest]
      simp [hc]
  intro ls
  induction ls with
  | nil => intro h; exact absurd rfl h
  | cons l rest ih =>
    intro _ hmem
    cases rest with
    | nil =>
      simp only [List.intercalate, List.intersperse, List.flatten]
      have := single l (hmem l (List.mem_cons_self _ _))
      simpa using this
    | cons l2 rest2 =>
      have hl : sep ∉ l := hmem l (List.mem_cons_self _ _)
      have hrest : ∀ x ∈ l2 :: rest2, sep ∉ x := fun x hx =>
        hmem x (List.mem_cons_of_mem _ hx)
      have hint : List.intercalate [sep] (l :: l2 :: rest2)
          = l ++ sep :: List.intercalate [sep] (l2 :: rest2) := by
        simp [List.intercalate, List.intersperse]
      rw [hint, step l _ hl, ih (by simp) hrest]

theorem reindentLines_length (spaces : Nat) (ls : List Str) (d : Nat) :
    (reindentLines spaces ls d).length = ls.length := by
  induction ls generalizing d with
  | nil => rfl
  | cons l rest ih => simp [reindentLines, ih]

theorem reindentLines_shape (spaces : Nat) (ls : List Str) (d : Nat) :
    List.Forall₂ (fun o i => ∃ k, o = List.replicate (k * spaces) ' ' ++ trim i)
      (reindentLines spaces ls d) ls := by
  induction ls generalizing d with
  | nil => exact List.Forall₂.nil
  | cons l rest ih =>
    simp only [reindentLines]
    exact List.Forall₂.cons ⟨_, rfl⟩ (ih _)

theorem reindentLines_no_newline (spaces : Nat) (ls : List Str) (d : Nat)
    (h : ∀ i ∈ ls, '\n' ∉ i) :
    ∀ l ∈ reindentLines spaces ls d, '\n' ∉ l := by
  induction ls generalizing d with
  | nil => intro l hl; simp [reindentLines] at hl
  | cons i rest ih =>
    intro l hl
    simp only [reindentLines, List.mem_cons] at hl
    rcases hl with hl | hl
    · subst hl
      intro hmem
      rcases List.mem_append.mp hmem with hmem | hmem
      · exact absurd (List.eq_of_mem_replicate hmem) (by decide)
      · exact not_mem_trim (h i (List.mem_cons_self _ _)) hmem
    · exact ih _ (fun x hx => h x (List.mem_cons_of_mem _ hx)) l hl

/-- **C10.** `reindent` preserves the number of lines, and every output line
is exactly some number of leading spaces (a nesting depth times the space
width) followed by the trimmed corresponding input line: the rewrite touches
only surrounding whitespace of each line. -/
theorem reindent_line_structure (code : Str) (spaces : Nat) :
    (splitOnChar '\n' (reindent code spaces)).length
        = (splitOnChar '\n' code).length ∧
    List.Forall₂ (fun o i => ∃ k, o = List.replicate (k * spaces) ' ' ++ trim i)
      (splitOnChar '\n' (reindent code spaces)) (splitOnChar '\n' code) := by
  have key : splitOnChar '\n' (reindent code spaces)
      = reindentLines spaces (splitOnChar '\n' code) 0 := by
    apply splitOnChar_intercalate
    · intro h
      have := reindentLines_length spaces (splitOnChar '\n' code) 0
      rw [h] at this
      exact splitOnChar_ne_nil '\n' code
        (List.eq_nil_of_length_eq_zero this.symm)
    · exact reindentLines_no_newline spaces _ 0
        (not_mem_of_mem_splitOnChar '\n' code)
  constructor
  · rw [key, reindentLines_length]
  · rw [key]; exact reindentLines_shape spaces (splitOnChar '\n' code) 0

/-! ## Chunking (`UnityProjectIndexer.chunkScript`, unity-indexer.ts 218-245) -/

/-- JS `\w` word characters (ASCII letters, digits, underscore). -/
def isWordChar (c : Char) : Bool :=
  ('a' ≤ c && c ≤ 'z') || ('A' ≤ c && c ≤ 'Z') || ('0' ≤ c && c ≤ '9') || c = '_'

/-- Drop a literal from the front of a string, failing when it is absent. -/
def dropLit (lit : Str) (s : Str) : Option Str :=
  if lit.isPrefixOf s then some (s.drop lit.length) else none

/-- Drop a non-empty maximal run of characters satisfying `p` (regex `p+`).
Because the loop bodies pair character classes that are disjoint from their
successors (`\s` vs `\w` vs a literal), greedy maximal-run matching agrees
with the backtracking regex semantics. -/
def dropRun1 (p : Char → Bool) (s : Str) : Option Str :=
  let run := s.takeWhile p
  if run.isEmpty then none else some (s.drop run.length)

def kwClass : Str := "class".toList
def kwPublic : Str := "public".toList
def kwPrivate : Str := "private".toList
def kwProtected : Str := "protected".toList

/-- Does the regex `class\s+\w+` match at the start of this suffix?  This is
the zero-width lookahead used by `content.split(/(?=class\s+\w+)/)`. -/
def classBoundaryAt (s : Str) : Bool :=
  (do
    let r1 ← dropLit kwClass s
    let r2 ← dropRun1 isWsChar r1
    match r2 with
    | c :: _ => if isWordChar c then some () else none
    | [] => none).isSome

/-- One of the access-modifier keywords at the start of the suffix (regex
alternation `public|private|protected`; the literals are mutually exclusive
at any one position). -/
def accessKeywordEnd (s : Str) : Option Str :=
  match dropLit kwPublic s with
  | some r => some r
  | none =>
    match dropLit kwPrivate s with
    | some r => some r
    | none => dropLit kwProtected s

/-- Does `(?:public|private|protected)\s+\w+\s+\w+\s*\(` match at the start
of this suffix?  This is the lookahead of the method-boundary split in
`chunkScript`. -/
def methodBoundaryAt (s : Str) : Bool :=
  (do
    let r1 ← accessKeywordEnd s
    let r2 ← dropRun1 isWsChar r1
    let r3 ← dropRun1 isWordChar r2
    let r4 ← dropRun1 isWsChar r3
    let r5 ← dropRun1 isWordChar r4
    match r5.dropWhile isWsChar with
    | '(' :: _ => some ()
    | _ => none).isSome

/-- Tail of `splitBefore`: accumulate the current piece (reversed) and start
a new piece at every later position whose suffix satisfies the zero-width
boundary test. -/
def splitBeforeGo (p : Str → Bool) : Str → Str → List Str
  | cur, [] => [cur.reverse]
  | cur, c :: rest =>
    if p (c :: rest) then cur.reverse :: splitBeforeGo p [c] rest
    else splitBeforeGo p (c :: cur) rest

/-- JavaScript `str.split(/(?=…)/)` for a zero-width lookahead regex: split
before every position (other than position 0, where ECMAScript suppresses
the empty leading piece) at which the boundary test fires. -/
def splitBefore (p : Str → Bool) : Str → List Str
  | [] => [[]]
  | c :: rest => splitBeforeGo p [c] rest

/-- The accumulation loop inside `chunkScript` (unity-indexer.ts 231-240):
append the next method section to the running buffer while the ceiling is
respected, otherwise flush the (truthy) buffer and restart from the section.
The trailing buffer is flushed at the end. -/
def chunkLoop (maxChunkSize : Nat) : List Str → List Str → Str → List Str
  | [], chunks, currentChunk =>
    if currentChunk.isEmpty then chunks else chunks ++ [trim currentChunk]
  | m :: rest, chunks, currentChunk =>
    if (currentChunk ++ m).length ≤ maxChunkSize then
      chunkLoop maxChunkSize rest chunks (currentChunk ++ m)
    else
      chunkLoop maxChunkSize rest
        (if currentChunk.isEmpty then chunks else chunks ++ [trim currentChunk]) m

/-- The outer loop of `chunkScript` over class sections: short sections are
pushed trimmed; oversized sections are re-split along method boundaries and
accumulated by `chunkLoop`. -/
def chunkOuter (maxChunkSize : Nat) : List Str → List Str → List Str
  | [], chunks => chunks
  | sec :: rest, chunks =>
    if sec.length ≤ maxChunkSize then
      chunkOuter maxChunkSize rest (chunks ++ [trim sec])
    else
      chunkOuter maxChunkSize rest
        (chunkLoop maxChunkSize (splitBefore methodBoundaryAt sec) chunks [])

/-- `UnityProjectIndexer.chunkScript(content, maxChunkSize = 1000)`. -/
def chunkScript (content : Str) (maxChunkSize : Nat := 1000) : List Str :=
  (chunkOuter maxChunkSize (splitBefore classBoundaryAt content) []).filter
    (fun c => decide (0 < c.length))

theorem chunkLoop_forall (N : Nat) (Q : Str → Prop) (pieces0 : List Str)
    (hpush : ∀ x : Str, (x.length ≤ N ∨ x ∈ pieces0) → Q (trim x)) :
    ∀ (pieces chunks : List Str) (cur : Str),
      pieces ⊆ pieces0 →
      (∀ c ∈ chunks, Q c) →
      (cur.length ≤ N ∨ cur ∈ pieces0) →
      ∀ c ∈ chunkLoop N pieces chunks cur, Q c := by
  intro pieces
  induction pieces with
  | nil =>
    intro chunks cur _ hchunks hcur c hc
    simp only [chunkLoop] at hc
    split at hc
    · exact hchunks c hc
    · rcases List.mem_append.mp hc with h | h
      · exact hchunks c h
      · rw [List.mem_singleton.mp h]; exact hpush cur hcur
  | cons m rest ih =>
    intro chunks cur hsub hchunks hcur c hc
    simp only [chunkLoop] at hc
    split at hc
    · exact ih chunks (cur ++ m) (fun x hx => hsub (List.mem_cons_of_mem _ hx))
        hchunks (Or.inl (by assumption)) c hc
    · refine ih _ m (fun x hx => hsub (List.mem_cons_of_mem _ hx)) ?_
        (Or.inr (hsub (List.mem_cons_self _ _))) c hc
      intro d hd
      split at hd
      · exact hchunks d hd
      · rcases List.mem_append.mp hd with h | h
        · exact hchunks d h
        · rw [List.mem_singleton.mp h]; exact hpush cur hcur

theorem chunkOuter_forall (N : Nat) (secs0 : List Str) :
    ∀ (secs chunks : List Str),
      secs ⊆ secs0 →
      (∀ c ∈ chunks,
        c.length ≤ N ∨ ∃ s ∈ secs0, N < s.length ∧
          ∃ m ∈ splitBefore methodBoundaryAt s, c = trim m) →
      ∀ c ∈ chunkOuter N secs chunks,
        c.length ≤ N ∨ ∃ s ∈ secs0, N < s.length ∧
          ∃ m ∈ splitBefore methodBoundaryAt s, c = trim m := by
  intro secs
  induction secs with
  | nil => intro chunks _ hchunks c hc; exact hchunks c hc
  | cons sec rest ih =>
    intro chunks hsub hchunks c hc
    simp only [chunkOuter] at hc
    split at hc
    · refine ih _ (fun x hx => hsub (List.mem_cons_of_mem _ hx)) ?_ c hc
      intro d hd
      rcases List.mem_append.mp hd with h | h
      · exact hchunks d h
      · rw [List.mem_singleton.mp h]
        exact Or.inl ((trim_length_le sec).trans (by assumption))
    · refine ih _ (fun x hx => hsub (List.mem_cons_of_mem _ hx)) ?_ c hc
      refine chunkLoop_forall N _ (splitBefore methodBoundaryAt sec) ?_
        _ chunks [] (fun x hx => hx) hchunks (Or.inl (by simp))
      intro x hx
      rcases hx with hx | hx
      · exact Or.inl ((trim_length_le x).trans hx)
      · exact Or.inr ⟨sec, hsub (List.mem_cons_self _ _),
          by omega, x, hx, rfl⟩

/-- **C2.** Every chunk emitted by `chunkScript` has length at most
`maxChunkSize`, except possibly a chunk that is (the trim of) one single
structural piece — a method section of an oversize class section, including
the degenerate case of an oversize class section with no method
sub-boundary, which the split returns as its own single piece.  In
particular the accumulation buffer never flushes a multi-piece chunk longer
than the ceiling. -/
theorem chunkScript_size_bound (content : Str) (N : Nat) (c : Str)
    (hc : c ∈ chunkScript content N) :
    c.length ≤ N ∨
    ∃ s ∈ splitBefore classBoundaryAt content, N < s.length ∧
      ∃ m ∈ splitBefore methodBoundaryAt s, c = trim m := by
  have hc' : c ∈ chunkOuter N (splitBefore classBoundaryAt content) [] :=
    List.mem_of_mem_filter hc
  exact chunkOuter_forall N (splitBefore classBoundaryAt content) _ []
    (fun x hx => hx) (by simp) c hc'

/-- Witness for C2 at a concrete input: a short script yields a single chunk
within the ceiling. -/
theorem chunkScript_size_bound_witness :
    (("class A x").toList).length ≤ 1000 ∨
    ∃ s ∈ splitBefore classBoundaryAt (("class A x").toList), 1000 < s.length ∧
      ∃ m ∈ splitBefore methodBoundaryAt s, ("class A x").toList = trim m :=
  chunkScript_size_bound (("class A x").toList) 1000 (("class A x").toList)
    (by decide)

/-! ## Vector search result transform (`PineconeVectorDB.search`,
unity-indexer.ts 835-880).  Similarity scores are modelled as rationals. -/

inductive Relevance
  | high
  | medium
  | low
deriving DecidableEq

/-- A raw Pinecone match: `score` and `values` may be absent. -/
structure VecMatch where
  id : Str
  score : Option ℚ
  content : Option Str
  values : Option (List ℚ)
deriving DecidableEq

structure SearchResult where
  id : Str
  content : Str
  embedding : List ℚ
  score : ℚ
  relevance : Relevance
deriving DecidableEq

/-- JS truthiness of `match.score` in `match.score && match.score >= minScore`:
an absent score and a zero score are both falsy. -/
def scoreTruthy : Option ℚ → Bool
  | none => false
  | some s => decide (s ≠ 0)

/-- The `results.matches.filter(...).map(...)` transform of
`PineconeVectorDB.search`: drop matches whose score is falsy or below
`minScore`, then attach the relevance band.  The source's decimal literals
0.85 and 0.75 are written `mkRat` so that the kernel can evaluate them. -/
def searchTransform (ms : List VecMatch) (minScore : ℚ) : List SearchResult :=
  (ms.filter (fun m =>
      scoreTruthy m.score && decide (minScore ≤ m.score.getD 0))).map
    (fun m =>
      let score := m.score.getD 0
      { id := m.id
        content := m.content.getD []
        embedding := m.values.getD []
        score := score
        relevance :=
          if (mkRat 85 100 : ℚ) < score then Relevance.high
          else if (mkRat 3 4 : ℚ) < score then Relevance.medium
          else Relevance.low })

/-- `const minScore = options?.minScore || 0.7`: an absent option and a falsy
(zero) option both fall back to the 0.7 default. -/
def searchDefaultMinScore : Option ℚ → ℚ
  | none => mkRat 7 10
  | some m => if m = 0 then mkRat 7 10 else m

theorem mkRat_7_10_eq : (mkRat 7 10 : ℚ) = 0.7 := by
  rw [Rat.mkRat_eq_divInt]; norm_num [Rat.divInt_eq_div]

theorem mkRat_85_100_eq : (mkRat 85 100 : ℚ) = 0.85 := by
  rw [Rat.mkRat_eq_divInt]; norm_num [Rat.divInt_eq_div]

theorem mkRat_3_4_eq : (mkRat 3 4 : ℚ) = 0.75 := by
  rw [Rat.mkRat_eq_divInt]; norm_num [Rat.divInt_eq_div]

/-- `PineconeVectorDB.search` restricted to its pure result transform: the
Pinecone query reply is the `matches` argument. -/
def searchResults (ms : List VecMatch) (minScoreOpt : Option ℚ) :
    List SearchResult :=
  searchTransform ms (searchDefaultMinScore minScoreOpt)

/-- **C3.** Under the default minimum-score threshold, every retained search
result has score at least 0.7 (matches scoring below 0.7 are excluded), and
the relevance band is `high` exactly above 0.85, `medium` on (0.75, 0.85],
and `low` at or below 0.75. -/
theorem search_threshold_and_banding (ms : List VecMatch)
    (r : SearchResult) (hr : r ∈ searchResults ms none) :
    (0.7 : ℚ) ≤ r.score ∧
    ((0.85 : ℚ) < r.score → r.relevance = Relevance.high) ∧
    ((0.75 : ℚ) < r.score ∧ r.score ≤ (0.85 : ℚ) → r.relevance = Relevance.medium) ∧
    (r.score ≤ (0.75 : ℚ) → r.relevance = Relevance.low) := by
  simp only [searchResults, searchTransform, searchDefaultMinScore,
    List.mem_map] at hr
  obtain ⟨m, hm, rfl⟩ := hr
  have hfilter := List.of_mem_filter hm
  rw [Bool.and_eq_true, decide_eq_true_eq] at hfilter
  dsimp only
  refine ⟨mkRat_7_10_eq ▸ hfilter.2, ?_, ?_, ?_⟩
  · intro h
    rw [if_pos (show (mkRat 85 100 : ℚ) < _ by rw [mkRat_85_100_eq]; exact h)]
  · rintro ⟨h1, h2⟩
    rw [if_neg (show ¬(mkRat 85 100 : ℚ) < _ by
          rw [mkRat_85_100_eq]; exact not_lt.mpr h2),
        if_pos (show (mkRat 3 4 : ℚ) < _ by rw [mkRat_3_4_eq]; exact h1)]
  · intro h
    rw [if_neg (show ¬(mkRat 85 100 : ℚ) < _ by
          rw [mkRat_85_100_eq]; exact not_lt.mpr (h.trans (by norm_num))),
        if_neg (show ¬(mkRat 3 4 : ℚ) < _ by
          rw [mkRat_3_4_eq]; exact not_lt.mpr h)]

/-- Witness for C3: a concrete match with score 0.9 is retained and banded
`high`. -/
theorem search_threshold_and_banding_witness :
    (0.7 : ℚ) ≤ (mkRat 9 10 : ℚ) ∧
    ((0.85 : ℚ) < (mkRat 9 10 : ℚ) → Relevance.high = Relevance.high) ∧
    ((0.75 : ℚ) < (mkRat 9 10 : ℚ) ∧ (mkRat 9 10 : ℚ) ≤ (0.85 : ℚ) →
      Relevance.high = Relevance.medium) ∧
    ((mkRat 9 10 : ℚ) ≤ (0.75 : ℚ) → Relevance.high = Relevance.low) :=
  search_threshold_and_banding
    [{ id := ("doc1").toList, score := some (mkRat 9 10), content := none,
       values := none }]
    { id := ("doc1").toList, content := [], embedding := [],
      score := mkRat 9 10, relevance := Relevance.high }
    (by decide)

/-! ## Query intent classification (`RAGEngine.analyzeQueryIntent`,
unity-indexer.ts 401-472) -/

inductive IntentType
  | codeGeneration
  | explanation
  | debugging
  | optimization
  | general
deriving DecidableEq

/-- `query.toLowerCase()` (ASCII lowering; the keyword tables are ASCII). -/
def toLowerStr (s : Str) : Str := s.map Char.toLower

/-- JS `haystack.includes(needle)`: the needle occurs at some position. -/
def includesStr : Str → Str → Bool
  | [], sub => sub.isEmpty
  | s@(_ :: rest), sub => sub.isPrefixOf s || includesStr rest sub

def matchesCodeGeneration (lowerQuery : Str) : Bool :=
  includesStr lowerQuery (("create").toList) ||
  includesStr lowerQuery (("implement").toList) ||
  includesStr lowerQuery (("generate").toList) ||
  includesStr lowerQuery (("write").toList)

def matchesExplanation (lowerQuery : Str) : Bool :=
  includesStr lowerQuery (("explain").toList) ||
  includesStr lowerQuery (("what is").toList) ||
  includesStr lowerQuery (("how does").toList) ||
  includesStr lowerQuery (("why").toList)

def matchesDebugging (lowerQuery : Str) : Bool :=
  includesStr lowerQuery (("error").toList) ||
  includesStr lowerQuery (("bug").toList) ||
  includesStr lowerQuery (("fix").toList) ||
  includesStr lowerQuery (("debug").toList) ||
  includesStr lowerQuery (("not working").toList)

def matchesOptimization (lowerQuery : Str) : Bool :=
  includesStr lowerQuery (("optimize").toList) ||
  includesStr lowerQuery (("performance").toList) ||
  includesStr lowerQuery (("faster").toList) ||
  includesStr lowerQuery (("improve").toList)

/-- The `if/else if` chain detecting the query type. -/
def analyzeQueryIntentType (query : Str) : IntentType :=
  let lowerQuery := toLowerStr query
  if matchesCodeGeneration lowerQuery then IntentType.codeGeneration
  else if matchesExplanation lowerQuery then IntentType.explanation
  else if matchesDebugging lowerQuery then IntentType.debugging
  else if matchesOptimization lowerQuery then IntentType.optimization
  else IntentType.general

def stopWords : List Str :=
  [("the").toList, ("a").toList, ("an").toList, ("and").toList,
   ("or").toList, ("but").toList, ("in").toList, ("on").toList,
   ("at").toList, ("to").toList, ("for").toList, ("of").toList,
   ("with").toList]

/-- Tail of `splitWs`: `prevWs` records whether the previous character was
whitespace (i.e. we are inside a separator run that has already closed the
previous piece). -/
def splitWsAux : Bool → Str → Str → List Str
  | _, cur, [] => [cur.reverse]
  | prevWs, cur, c :: rest =>
    if isWsChar c then
      if prevWs then splitWsAux true cur rest
      else cur.reverse :: splitWsAux true [] rest
    else splitWsAux false (c :: cur) rest

/-- JS `query.split(/\s+/)`: split on maximal whitespace runs, keeping the
empty boundary pieces JavaScript produces at the ends. -/
def splitWs (s : Str) : List Str := splitWsAux false [] s

def unityKeywords : List Str :=
  [("unity").toList, ("gameobject").toList, ("monobehaviour").toList,
   ("transform").toList, ("rigidbody").toList, ("collider").toList,
   ("prefab").toList, ("scene").toList, ("awake").toList,
   ("start").toList, ("update").toList, ("fixedupdate").toList,
   ("networkbehaviour").toList, ("rpc").toList, ("serializefield").toList]

structure QueryIntent where
  type : IntentType
  keywords : List Str
  unitySpecific : Bool
deriving DecidableEq

/-- `RAGEngine.analyzeQueryIntent(query)`. -/
def analyzeQueryIntent (query : Str) : QueryIntent :=
  { type := analyzeQueryIntentType query
    keywords := (splitWs query).filter
      (fun word => !(stopWords.contains (toLowerStr word)) && decide (2 < word.length))
    unitySpecific := unityKeywords.any
      (fun keyword => includesStr (toLowerStr query) keyword) }

/-- **C5.** Intent classification is a total function into the five intent
kinds, testing the keyword buckets in priority order code-generation,
explanation, debugging, optimization, with `general` when none match; the
query "Create a new enemy AI script" classifies as code-generation. -/
theorem analyzeQueryIntent_priority (query : Str) :
    ((analyzeQueryIntent query).type = IntentType.codeGeneration ∨
     (analyzeQueryIntent query).type = IntentType.explanation ∨
     (analyzeQueryIntent query).type = IntentType.debugging ∨
     (analyzeQueryIntent query).type = IntentType.optimization ∨
     (analyzeQueryIntent query).type = IntentType.general) ∧
    (matchesCodeGeneration (toLowerStr query) = true →
      (analyzeQueryIntent query).type = IntentType.codeGeneration) ∧
    (matchesCodeGeneration (toLowerStr query) = false →
      matchesExplanation (toLowerStr query) = true →
      (analyzeQueryIntent query).type = IntentType.explanation) ∧
    (matchesCodeGeneration (toLowerStr query) = false →
      matchesExplanation (toLowerStr query) = false →
      matchesDebugging (toLowerStr query) = true →
      (analyzeQueryIntent query).type = IntentType.debugging) ∧
    (matchesCodeGeneration (toLowerStr query) = false →
      matchesExplanation (toLowerStr query) = false →
      matchesDebugging (toLowerStr query) = false →
      matchesOptimization (toLowerStr query) = true →
      (analyzeQueryIntent query).type = IntentType.optimization) ∧
    (matchesCodeGeneration (toLowerStr query) = false →
      matchesExplanation (toLowerStr query) = false →
      matchesDebugging (toLowerStr query) = false →
      matchesOptimization (toLowerStr query) = false →
      (analyzeQueryIntent query).type = IntentType.general) ∧
    (analyzeQueryIntent (("Create a new enemy AI script").toList)).type
      = IntentType.codeGeneration := by
  refine ⟨?_, ?_, ?_, ?_, ?_, ?_, by decide⟩
  · simp only [analyzeQueryIntent, analyzeQueryIntentType]
    repeat' split
    all_goals simp
  · intro h1
    simp [analyzeQueryIntent, analyzeQueryIntentType, h1]
  · intro h1 h2
    simp [analyzeQueryIntent, analyzeQueryIntentType, h1, h2]
  · intro h1 h2 h3
    simp [analyzeQueryIntent, analyzeQueryIntentType, h1, h2, h3]
  · intro h1 h2 h3 h4
    simp [analyzeQueryIntent, analyzeQueryIntentType, h1, h2, h3, h4]
  · intro h1 h2 h3 h4
    simp [analyzeQueryIntent, analyzeQueryIntentType, h1, h2, h3, h4]

/-- Witness for C5: a concrete query hitting the debugging bucket with the
earlier buckets discharged. -/
theorem analyzeQueryIntent_priority_witness :
    (analyzeQueryIntent (("fix the bug").toList)).type = IntentType.debugging :=
  (analyzeQueryIntent_priority (("fix the bug").toList)).2.2.2.1
    (by decide) (by decide) (by decide)

/-! ## Filesystem client allow-list (`FilesystemMCPClient`, QUICK_START.md
343-400).  Node's `path.resolve` is modelled for POSIX paths: an absolute
argument is normalized segment-wise, a relative argument is first joined to
the client's working directory. -/

/-- Segment normalization of `path.resolve`: empty and `.` segments vanish,
`..` pops the previous segment (stopping at the root).  `acc` holds the
kept segments in reverse. -/
def normalizeSegs : List Str → List Str → List Str
  | acc, [] => acc.reverse
  | acc, seg :: rest =>
    if seg = [] ∨ seg = ['.'] then normalizeSegs acc rest
    else if seg = ['.', '.'] then normalizeSegs (acc.drop 1) rest
    else normalizeSegs (seg :: acc) rest

/-- Node `path.resolve(p)` with working directory `cwd` (POSIX): make the
path absolute, then normalize its segments. -/
def resolvePath (cwd p : Str) : Str :=
  let abs := if p.head? = some '/' then p else cwd ++ ['/'] ++ p
  '/' :: List.intercalate ['/'] (normalizeSegs [] (splitOnChar '/' abs))

/-- The mutable state of a `FilesystemMCPClient`: its allow-list (the `Set`
is modelled as a list; only membership is ever used). -/
structure FsClient where
  cwd : Str
  allowedPaths : List Str

/-- `FilesystemMCPClient.addAllowedPath`: stores `path.resolve(dirPath)`. -/
def addAllowedPath (c : FsClient) (dirPath : Str) : FsClient :=
  { c with allowedPaths := c.allowedPaths ++ [resolvePath c.cwd dirPath] }

/-- `FilesystemMCPClient.isPathAllowed`: some stored root is a string
prefix (`String.prototype.startsWith`) of the resolved path. -/
def isPathAllowed (c : FsClient) (filePath : Str) : Bool :=
  c.allowedPaths.any (fun allowed => allowed.isPrefixOf (resolvePath c.cwd filePath))

inductive FsError
  | accessDenied
  | ioError
deriving DecidableEq

/-- The filesystem seen by the client: resolved path ↦ readable content
(`none` marks a file whose read fails). -/
abbrev FileSys := List (Str × Option Str)

/-- `FilesystemMCPClient.readFile`: reject with the access-denied error when
the allow-list check fails, otherwise attempt the read (any fs-level
failure is re-thrown as a distinct error). -/
def readFile (c : FsClient) (fs : FileSys) (filePath : Str) : Except FsError Str :=
  if !(isPathAllowed c filePath) then Except.error FsError.accessDenied
  else
    match List.lookup (resolvePath c.cwd filePath) fs with
    | some (some content) => Except.ok content
    | _ => Except.error FsError.ioError

/-- The spec's notion of a path lying under a root: equal to the root, or
extending it at a path-component boundary.  Stated from the claim's words
to compare against the code's plain string-prefix test. -/
def pathUnderRoot (root p : Str) : Bool :=
  decide (p = root) || (root ++ ['/']).isPrefixOf p

theorem isPrefixOf_eq_true_iff (l₁ l₂ : Str) :
    l₁.isPrefixOf l₂ = true ↔ ∃ t, l₂ = l₁ ++ t := by
  induction l₁ generalizing l₂ with
  | nil => simp [List.isPrefixOf]
  | cons a as ih =>
    cases l₂ with
    | nil => simp [List.isPrefixOf]
    | cons b bs =>
      simp only [List.isPrefixOf, Bool.and_eq_true, beq_iff_eq, ih]
      constructor
      · rintro ⟨rfl, t, rfl⟩
        exact ⟨t, rfl⟩
      · rintro ⟨t, ht⟩
        rw [List.cons_append] at ht
        injection ht with h1 h2
        exact ⟨h1.symm, t, h2⟩

/-- **C7 counterexample.** With allow-list `{resolve("/a/b")}`, the request
`"/a/bc"` resolves to a path that is not under any allowed root, yet
`readFile` succeeds instead of raising access-denied: the check is a plain
string-prefix test, so a sibling whose name extends the root's last
component slips through. -/
theorem readFile_allowlist_counterexample :
    pathUnderRoot (resolvePath (("/").toList) (("/a/b").toList))
        (resolvePath (("/").toList) (("/a/bc").toList)) = false ∧
    readFile
        (addAllowedPath { cwd := ("/").toList, allowedPaths := [] } (("/a/b").toList))
        [(("/a/bc").toList, some (("x").toList))]
        (("/a/bc").toList)
      = Except.ok (("x").toList) :=
  ⟨rfl, rfl⟩

/-- **C7 (amended).** `readFile` raises the access-denied error exactly when
no allow-listed root is a string prefix of the resolved request path.  One
direction of the original claim survives: a path under an allowed root is
never rejected by the allow-list check; but the rejection condition is the
string-prefix test, not path containment. -/
theorem readFile_accessDenied_iff (c : FsClient) (fs : FileSys) (p : Str) :
    (readFile c fs p = Except.error FsError.accessDenied ↔
      ∀ root ∈ c.allowedPaths, ¬ root.isPrefixOf (resolvePath c.cwd p) = true) ∧
    (∀ root ∈ c.allowedPaths,
      pathUnderRoot root (resolvePath c.cwd p) = true →
      readFile c fs p ≠ Except.error FsError.accessDenied) := by
  have hunder : ∀ root, pathUnderRoot root (resolvePath c.cwd p) = true →
      root.isPrefixOf (resolvePath c.cwd p) = true := by
    intro root h
    rw [pathUnderRoot, Bool.or_eq_true, decide_eq_true_eq] at h
    rcases h with h | h
    · rw [isPrefixOf_eq_true_iff]
      exact ⟨[], by rw [h, List.append_nil]⟩
    · rw [isPrefixOf_eq_true_iff] at h ⊢
      obtain ⟨t, ht⟩ := h
      exact ⟨'/' :: t, by rw [ht, List.append_assoc]; rfl⟩
  constructor
  · rw [readFile]
    by_cases hallow : isPathAllowed c p = true
    · rw [if_neg (by rw [hallow]; simp)]
      rw [isPathAllowed, List.any_eq_true] at hallow
      obtain ⟨root, hmem, hpre⟩ := hallow
      constructor
      · intro hcontra
        exfalso
        cases hlook : List.lookup (resolvePath c.cwd p) fs with
        | none => rw [hlook] at hcontra; exact absurd hcontra (by simp)
        | some v =>
          cases v with
          | none => rw [hlook] at hcontra; exact absurd hcontra (by simp)
          | some content => rw [hlook] at hcontra; exact absurd hcontra (by simp)
      · intro hall
        exact absurd hpre (hall root hmem)
    · rw [if_pos (by rw [Bool.not_eq_true] at hallow; rw [hallow]; rfl)]
      constructor
      · intro _ root hmem
        rw [isPathAllowed] at hallow
        intro hpre
        exact hallow (List.any_eq_true.mpr ⟨root, hmem, hpre⟩)
      · intro _; rfl
  · intro root hmem hpath
    rw [readFile, if_neg]
    · cases List.lookup (resolvePath c.cwd p) fs with
      | none => simp
      | some v => cases v with
        | none => simp
        | some content => simp
    · have : isPathAllowed c p = true :=
        List.any_eq_true.mpr ⟨root, hmem, hunder root hpath⟩
      rw [this]
      simp

/-- Witness for C7 (amended): a file under the allowed root `/a` is not
rejected. -/
theorem readFile_accessDenied_iff_witness :
    readFile
        (addAllowedPath { cwd := ("/").toList, allowedPaths := [] } (("/a").toList))
        [(("/a/f").toList, some (("y").toList))]
        (("/a/f").toList)
      ≠ Except.error FsError.accessDenied :=
  (readFile_accessDenied_iff
      (addAllowedPath { cwd := ("/").toList, allowedPaths := [] } (("/a").toList))
      [(("/a/f").toList, some (("y").toList))]
      (("/a/f").toList)).2
    (resolvePath (("/").toList) (("/a").toList))
    (by simp [addAllowedPath])
    (by decide)

/-! ## Indexing pipeline (`UnityProjectIndexer`, unity-indexer.ts 26-160 and
316-364).  `nanoid()` is modelled as a supply of tokens indexed by a counter
that advances once per generated id; the vector store is a list of stored
documents keyed by id, and Pinecone `upsert` is insert-or-overwrite by id.
Metadata fields of an IndexedDocument that no claim inspects (project name,
language, version, timestamps, parse metadata) are omitted; id, content and
file path are kept. -/

def natToStr (n : Nat) : Str := (toString n).toList

/-- Node `path.basename`: the segment after the last slash. -/
def baseName (s : Str) : Str :=
  (s.reverse.takeWhile (fun c => c ≠ '/')).reverse

structure Doc where
  id : Str
  content : Str
  filePath : Str
deriving DecidableEq

/-- The id scheme `` `${nanoid()}-${path.basename(name)}-chunk-${i}` ``. -/
def mkChunkId (token name : Str) (i : Nat) : Str :=
  token ++ '-' :: (baseName name ++ ("-chunk-").toList ++ natToStr i)

/-- A file as discovered on disk; `content` is the outcome of reading it
(`Except.error` models a read rejection). -/
structure SourceFile where
  path : Str
  name : Str
  content : Except Unit Str
  size : Nat
  modified : Nat

structure UnityScript where
  path : Str
  name : Str
  content : Str
deriving DecidableEq

/-- `FilesystemMCPClient.getUnityScripts`: every discovered script is read
inside one `Promise.all`, so a single failing read rejects the whole
batch and no partial list is returned. -/
def getUnityScripts : List SourceFile → Except Unit (List UnityScript)
  | [] => Except.ok []
  | f :: rest =>
    match f.content with
    | Except.error e => Except.error e
    | Except.ok c =>
      match getUnityScripts rest with
      | Except.error e => Except.error e
      | Except.ok scripts =>
        Except.ok ({ path := f.path, name := f.name, content := c } :: scripts)

/-- The `chunks.map((chunk, i) => ...)` document builder: one document per
chunk, each consuming one fresh token from the supply. -/
def chunkDocs (supply : Nat → Str) (k : Nat) (name filePath : Str) :
    List Str → Nat → List Doc
  | [], _ => []
  | chunk :: rest, i =>
    { id := mkChunkId (supply (k + i)) name i
      content := chunk
      filePath := filePath } :: chunkDocs supply k name filePath rest (i + 1)

structure ScriptPassOut where
  docs : List Doc
  indexed : Nat
  errors : Nat
  nextToken : Nat
deriving DecidableEq

/-- The per-script loop of `UnityProjectIndexer.indexScripts` (lines
118-152).  The loop body (metadata extraction by total regex scans, chunking,
document construction) cannot throw once the contents are in hand, so the
`catch` arm never runs and `errors` stays 0; read failures never reach this
loop at all — they reject `getUnityScripts` beforehand. -/
def indexScriptsLoop (supply : Nat → Str) (k : Nat) : List UnityScript → ScriptPassOut
  | [] => { docs := [], indexed := 0, errors := 0, nextToken := k }
  | s :: rest =>
    let chunks := chunkScript s.content 1000
    let docs := chunkDocs supply k s.name s.path chunks 0
    let out := indexScriptsLoop supply (k + chunks.length) rest
    { docs := docs ++ out.docs
      indexed := out.indexed + 1
      errors := out.errors
      nextToken := out.nextToken }

/-- `UnityProjectIndexer.indexScripts`: discover + read (rejecting on any
read failure), then run the per-script loop.  Returns
(total, indexed, errors, documents, next token). -/
def indexScripts (supply : Nat → Str) (k : Nat) (files : List SourceFile) :
    Except Unit (Nat × Nat × Nat × List Doc × Nat) :=
  match getUnityScripts files with
  | Except.error e => Except.error e
  | Except.ok scripts =>
    let out := indexScriptsLoop supply k scripts
    Except.ok (scripts.length, out.indexed, out.errors, out.docs, out.nextToken)

/-- Pinecone `upsert` of one record: overwrite the record with the same id,
or append a new one. -/
def upsertOne (db : List Doc) (d : Doc) : List Doc :=
  if db.any (fun e => decide (e.id = d.id)) then
    db.map (fun e => if e.id = d.id then d else e)
  else db ++ [d]

/-- `PineconeVectorDB.storeBatch`: upsert each document in order (the
batching by 100 does not change the resulting store state). -/
def storeBatch (db : List Doc) (docs : List Doc) : List Doc :=
  docs.foldl upsertOne db

/-- Scene / prefab placeholder documents (`indexScenes` / `indexPrefabs`):
one document per asset path with id `` `${nanoid()}-${basename}` `` and a
synthetic description as content. -/
def indexAssetDocs (supply : Nat → Str) (k : Nat) (desc : Str) :
    List Str → List Doc × Nat
  | [] => ([], k)
  | p :: rest =>
    let doc : Doc :=
      { id := supply k ++ '-' :: baseName p
        content := desc ++ baseName p
        filePath := p }
    let (docs, k') := indexAssetDocs supply (k + 1) desc rest
    (doc :: docs, k')

/-- A project tree as the filesystem client discovers it. -/
structure ProjectFS where
  scripts : List SourceFile
  scenes : List Str
  prefabs : List Str

structure IndexCounters where
  totalFiles : Nat
  indexed : Nat
  errors : Nat
deriving DecidableEq

/-- `UnityProjectIndexer.indexProject`: scripts, then scenes, then prefabs;
each category's documents are stored in one batch; any rejection inside the
`try` block (in particular a failed script read) is re-thrown and rejects
the whole call.  `getProjectInfo` never rejects (its failures are caught and
replaced by fallbacks) and does not influence the counters or the store. -/
def indexProject (supply : Nat → Str) (k : Nat) (proj : ProjectFS)
    (db : List Doc) : Except Unit (IndexCounters × List Doc × Nat) :=
  match indexScripts supply k proj.scripts with
  | Except.error e => Except.error e
  | Except.ok (total, indexed, errors, docs, k1) =>
    let db1 := storeBatch db docs
    let (sceneDocs, k2) := indexAssetDocs supply k1 (("Unity scene: ").toList) proj.scenes
    let db2 := storeBatch db1 sceneDocs
    let (prefabDocs, k3) := indexAssetDocs supply k2 (("Unity prefab: ").toList) proj.prefabs
    let db3 := storeBatch db2 prefabDocs
    Except.ok
      ({ totalFiles := total + proj.scenes.length + proj.prefabs.length
         indexed := indexed + proj.scenes.length + proj.prefabs.length
         errors := errors }, db3, k3)

/-! ### C1: read failures versus the error counter -/

theorem getUnityScripts_error_of_bad (files : List SourceFile)
    (h : ∃ f ∈ files, f.content = Except.error ()) :
    getUnityScripts files = Except.error () := by
  induction files with
  | nil => simp at h
  | cons f rest ih =>
    rcases h with ⟨g, hg, hbad⟩
    rcases List.mem_cons.mp hg with rfl | hg'
    · simp [getUnityScripts, hbad]
    · cases hc : f.content with
      | error e => cases e; simp [getUnityScripts, hc]
      | ok c => simp [getUnityScripts, hc, ih ⟨g, hg', hbad⟩]

theorem getUnityScripts_ok_of_good (files : List SourceFile)
    (h : ∀ f ∈ files, f.content ≠ Except.error ()) :
    ∃ scripts, getUnityScripts files = Except.ok scripts ∧
      scripts.length = files.length := by
  induction files with
  | nil => exact ⟨[], rfl, rfl⟩
  | cons f rest ih =>
    obtain ⟨scripts, hs, hlen⟩ := ih (fun g hg => h g (List.mem_cons_of_mem _ hg))
    cases hc : f.content with
    | error e => cases e; exact absurd hc (h f (List.mem_cons_self _ _))
    | ok c =>
      exact ⟨{ path := f.path, name := f.name, content := c } :: scripts,
        by simp [getUnityScripts, hc, hs], by simp [hlen]⟩

theorem indexScriptsLoop_indexed_errors (supply : Nat → Str)
    (scripts : List UnityScript) : ∀ k : Nat,
    (indexScriptsLoop supply k scripts).indexed = scripts.length ∧
    (indexScriptsLoop supply k scripts).errors = 0 := by
  induction scripts with
  | nil => intro k; exact ⟨rfl, rfl⟩
  | cons s rest ih =>
    intro k
    simp [indexScriptsLoop, (ih _).1, (ih _).2]

/-- **C1 (amended).** A per-file read failure during the script sub-pass
rejects the whole `indexProject` call: the reads happen inside one
`Promise.all` in `getUnityScripts`, before the per-script `try/catch`, so
the failure is never counted in `errors`.  When every script is readable,
the call succeeds with `errors = 0` and `indexed = totalFiles`. -/
theorem indexProject_read_failure (supply : Nat → Str) (k : Nat)
    (proj : ProjectFS) (db : List Doc) :
    ((∃ f ∈ proj.scripts, f.content = Except.error ()) →
      indexProject supply k proj db = Except.error ()) ∧
    ((∀ f ∈ proj.scripts, f.content ≠ Except.error ()) →
      ∃ cs dbOut k3,
        indexProject supply k proj db = Except.ok (cs, dbOut, k3) ∧
        cs.totalFiles
          = proj.scripts.length + proj.scenes.length + proj.prefabs.length ∧
        cs.indexed = cs.totalFiles ∧
        cs.errors = 0) := by
  constructor
  · intro h
    rw [indexProject, indexScripts, getUnityScripts_error_of_bad proj.scripts h]
  · intro h
    obtain ⟨scripts, hs, hlen⟩ := getUnityScripts_ok_of_good proj.scripts h
    simp only [indexProject, indexScripts, hs]
    refine ⟨_, _, _, rfl, ?_, ?_, ?_⟩
    · simp [hlen]
    · simp [(indexScriptsLoop_indexed_errors supply scripts k).1, hlen]
    · simp [(indexScriptsLoop_indexed_errors supply scripts k).2]

/-- Witness for C1 (amended): a tree whose single script is readable indexes
cleanly with zero errors. -/
theorem indexProject_read_failure_witness :
    ∃ cs dbOut k3,
      indexProject (fun _ => ("t").toList) 0
          { scripts := [{ path := ("/p/Assets/Scripts/A.cs").toList,
                          name := ("A.cs").toList,
                          content := Except.ok (("class C").toList),
                          size := 7, modified := 0 }],
            scenes := [], prefabs := [] } []
        = Except.ok (cs, dbOut, k3) ∧
      cs.totalFiles = 1 + 0 + 0 ∧
      cs.indexed = cs.totalFiles ∧
      cs.errors = 0 :=
  (indexProject_read_failure (fun _ => ("t").toList) 0
      { scripts := [{ path := ("/p/Assets/Scripts/A.cs").toList,
                      name := ("A.cs").toList,
                      content := Except.ok (("class C").toList),
                      size := 7, modified := 0 }],
        scenes := [], prefabs := [] } []).2
    (by intro f hf; simp at hf; simp [hf])

def c1GoodScript (i : Nat) : SourceFile :=
  { path := ("/p/Assets/Scripts/S").toList ++ natToStr i ++ (".cs").toList
    name := ("S").toList ++ natToStr i ++ (".cs").toList
    content := Except.ok (("class C").toList)
    size := 7
    modified := 0 }

def c1BadScript : SourceFile :=
  { path := ("/p/Assets/Scripts/Broken.cs").toList
    name := ("Broken.cs").toList
    content := Except.error ()
    size := 0
    modified := 0 }

/-- The tree of Scenario B: ten readable scripts and one unreadable one. -/
def c1Tree : ProjectFS :=
  { scripts := (List.range 10).map c1GoodScript ++ [c1BadScript]
    scenes := []
    prefabs := [] }

/-- **C1 counterexample.** On a tree with 10 readable scripts and 1
unreadable script, `indexProject` does not complete successfully with
`{totalFiles := 11, indexed := 10, errors := 1}` — it rejects outright,
because the failing read rejects the `Promise.all` inside `getUnityScripts`
before the per-script error counting runs. -/
theorem indexProject_unreadable_rejects :
    c1Tree.scripts.length = 11 ∧
    indexProject (fun _ => ("t").toList) 0 c1Tree [] = Except.error () :=
  ⟨rfl, rfl⟩

/-! ### C6: unlink events and the vector store -/

inductive FileEvent
  | add
  | change
  | unlink
deriving DecidableEq

/-- One call against the vector store. -/
inductive VecOp
  | store (docs : List Doc)
  | deleteOne (id : Str)
deriving DecidableEq

/-- JS `str.endsWith(suffix)`. -/
def endsWithStr (s suffix : Str) : Bool :=
  suffix.reverse.isPrefixOf s.reverse

/-- The watch callback registered by `UnityProjectIndexer.watchProject`
(unity-indexer.ts 319-361), abstracted to the vector-store operations it
issues: a `.cs` file with a non-`unlink` event is re-read, re-chunked and
stored in one batch (a failing re-read is caught and logged); an `unlink`
event, and any non-`.cs` path, only logs. -/
def watchCallbackOps (supply : Nat → Str) (k : Nat) (filePath : Str)
    (event : FileEvent) (readResult : Except Unit Str) : List VecOp :=
  if endsWithStr filePath ((".cs").toList) = true ∧ event ≠ FileEvent.unlink then
    match readResult with
    | Except.error _ => []
    | Except.ok content =>
      [VecOp.store (chunkDocs supply k filePath filePath (chunkScript content 1000) 0)]
  else []

/-- Run a sequence of vector-store operations against the store state. -/
def applyVecOps (db : List Doc) (ops : List VecOp) : List Doc :=
  ops.foldl
    (fun acc op =>
      match op with
      | VecOp.store docs => storeBatch acc docs
      | VecOp.deleteOne docId => acc.filter (fun d => decide (d.id ≠ docId)))
    db

/-- **C6.** A file-change event of kind `unlink` reaching the watch callback
performs zero vector-store operations — no upsert and no deletion — so the
vector index state is unchanged by a file-deletion event. -/
theorem watch_unlink_no_vector_ops (supply : Nat → Str) (k : Nat)
    (filePath : Str) (readResult : Except Unit Str) (db : List Doc) :
    watchCallbackOps supply k filePath FileEvent.unlink readResult = [] ∧
    applyVecOps db (watchCallbackOps supply k filePath FileEvent.unlink readResult)
      = db := by
  have h : watchCallbackOps supply k filePath FileEvent.unlink readResult = [] := by
    unfold watchCallbackOps
    rw [if_neg]
    rintro ⟨-, hne⟩
    exact hne rfl
  exact ⟨h, by rw [h]; rfl⟩

/-! ### C8: rerunning the indexer appends rather than overwrites -/

/-- Total number of chunks (= fresh ids = `nanoid()` calls) one script pass
generates. -/
def totalChunks : List UnityScript → Nat
  | [] => 0
  | s :: rest => (chunkScript s.content 1000).length + totalChunks rest

theorem chunkDocs_length (supply : Nat → Str) (k : Nat) (name fp : Str) :
    ∀ (chunks : List Str) (i : Nat),
      (chunkDocs supply k name fp chunks i).length = chunks.length := by
  intro chunks
  induction chunks with
  | nil => intro i; rfl
  | cons c rest ih => intro i; simp [chunkDocs, ih]

theorem indexScriptsLoop_nextToken (supply : Nat → Str)
    (scripts : List UnityScript) : ∀ k : Nat,
    (indexScriptsLoop supply k scripts).nextToken = k + totalChunks scripts := by
  induction scripts with
  | nil => intro k; simp [indexScriptsLoop, totalChunks]
  | cons s rest ih =>
    intro k
    simp only [indexScriptsLoop, totalChunks, ih]
    omega

theorem indexScriptsLoop_docs_length (supply : Nat → Str)
    (scripts : List UnityScript) : ∀ k : Nat,
    (indexScriptsLoop supply k scripts).docs.length = totalChunks scripts := by
  induction scripts with
  | nil => intro k; rfl
  | cons s rest ih =>
    intro k
    simp [indexScriptsLoop, totalChunks, chunkDocs_length, ih]

theorem chunkDocs_mem (supply : Nat → Str) (k : Nat) (name fp : Str) :
    ∀ (chunks : List Str) (i : Nat) (d : Doc),
      d ∈ chunkDocs supply k name fp chunks i →
      ∃ j, i ≤ j ∧ j < i + chunks.length ∧
        d.id = mkChunkId (supply (k + j)) name j := by
  intro chunks
  induction chunks with
  | nil => intro i d hd; simp [chunkDocs] at hd
  | cons c rest ih =>
    intro i d hd
    rcases List.mem_cons.mp hd with rfl | hd'
    · exact ⟨i, le_refl i, by simp, rfl⟩
    · obtain ⟨j, hj1, hj2, hj3⟩ := ih (i + 1) d hd'
      exact ⟨j, by omega, by simp [List.length_cons] at hj2 ⊢; omega, hj3⟩

theorem indexScriptsLoop_mem (supply : Nat → Str)
    (scripts : List UnityScript) : ∀ (k : Nat) (d : Doc),
    d ∈ (indexScriptsLoop supply k scripts).docs →
    ∃ t, k ≤ t ∧ t < k + totalChunks scripts ∧
      ∃ name i, d.id = mkChunkId (supply t) name i := by
  induction scripts with
  | nil => intro k d hd; simp [indexScriptsLoop] at hd
  | cons s rest ih =>
    intro k d hd
    simp only [indexScriptsLoop, List.mem_append] at hd
    rcases hd with hd | hd
    · obtain ⟨j, _, hj2, hj3⟩ := chunkDocs_mem supply k s.name s.path _ 0 d hd
      exact ⟨k + j, by omega, by simp [totalChunks]; omega, s.name, j, hj3⟩
    · obtain ⟨t, ht1, ht2, hrest⟩ := ih _ d hd
      exact ⟨t, by omega, by simp [totalChunks] at ht2 ⊢; omega, hrest⟩

theorem mkChunkId_token_eq {t1 t2 n1 n2 : Str} {i1 i2 : Nat}
    (hlen : t1.length = t2.length)
    (h : mkChunkId t1 n1 i1 = mkChunkId t2 n2 i2) : t1 = t2 := by
  rw [mkChunkId, mkChunkId] at h
  exact (List.append_inj h hlen).1

theorem chunkDocs_ids_nodup (supply : Nat → Str) (B : Nat)
    (hlen : ∀ t, t < B → (supply t).length = 21)
    (hinj : ∀ t1, t1 < B → ∀ t2, t2 < B → t1 ≠ t2 → supply t1 ≠ supply t2)
    (k : Nat) (name fp : Str) :
    ∀ (chunks : List Str) (i : Nat), k + i + chunks.length ≤ B →
      ((chunkDocs supply k name fp chunks i).map Doc.id).Nodup := by
  intro chunks
  induction chunks with
  | nil => intro i _; simp [chunkDocs]
  | cons c rest ih =>
    intro i hB
    simp only [chunkDocs, List.map_cons, List.nodup_cons]
    constructor
    · intro hmem
      obtain ⟨d, hd, hid⟩ := List.mem_map.mp hmem
      obtain ⟨j, hj1, hj2, hj3⟩ := chunkDocs_mem supply k name fp rest (i + 1) d hd
      rw [hj3] at hid
      have hne : k + i ≠ k + j := by omega
      have hb1 : k + i < B := by simp [List.length_cons] at hB; omega
      have hb2 : k + j < B := by simp [List.length_cons] at hB; omega
      exact hinj (k + i) hb1 (k + j) hb2 hne
        (mkChunkId_token_eq ((hlen _ hb1).trans (hlen _ hb2).symm) hid.symm)
    · exact ih (i + 1) (by simp [List.length_cons] at hB; omega)

theorem indexScriptsLoop_ids_nodup (supply : Nat → Str) (B : Nat)
    (hlen : ∀ t, t < B → (supply t).length = 21)
    (hinj : ∀ t1, t1 < B → ∀ t2, t2 < B → t1 ≠ t2 → supply t1 ≠ supply t2)
    (scripts : List UnityScript) : ∀ k : Nat, k + totalChunks scripts ≤ B →
    ((indexScriptsLoop supply k scripts).docs.map Doc.id).Nodup := by
  induction scripts with
  | nil => intro k _; simp [indexScriptsLoop]
  | cons s rest ih =>
    intro k hB
    have hB' : k + (chunkScript s.content 1000).length + totalChunks rest ≤ B := by
      simp [totalChunks] at hB; omega
    simp only [indexScriptsLoop, List.map_append]
    refine List.Nodup.append ?_ (ih _ (by omega)) ?_
    · exact chunkDocs_ids_nodup supply B hlen hinj k s.name s.path _ 0 (by omega)
    · intro x hx1 hx2
      obtain ⟨d1, hd1, hid1⟩ := List.mem_map.mp hx1
      obtain ⟨d2, hd2, hid2⟩ := List.mem_map.mp hx2
      obtain ⟨j, _, hj2, hj3⟩ := chunkDocs_mem supply k s.name s.path _ 0 d1 hd1
      obtain ⟨t, ht1, ht2, n2, i2, ht3⟩ := indexScriptsLoop_mem supply rest _ d2 hd2
      have heq : mkChunkId (supply (k + j)) s.name j = mkChunkId (supply t) n2 i2 := by
        rw [← hj3, ← ht3, hid1, hid2]
      have hb1 : k + j < B := by omega
      have hb2 : t < B := by simp [totalChunks] at hB; omega
      have hne : k + j ≠ t := by omega
      exact hinj (k + j) hb1 t hb2 hne
        (mkChunkId_token_eq ((hlen _ hb1).trans (hlen _ hb2).symm) heq)

theorem storeBatch_ids_of_fresh :
    ∀ (docs db : List Doc),
      (∀ d ∈ docs, d.id ∉ db.map Doc.id) → (docs.map Doc.id).Nodup →
      (storeBatch db docs).map Doc.id = db.map Doc.id ++ docs.map Doc.id := by
  intro docs
  induction docs with
  | nil => intro db _ _; simp [storeBatch]
  | cons d rest ih =>
    intro db hfresh hnodup
    have hup : upsertOne db d = db ++ [d] := by
      rw [upsertOne, if_neg]
      intro hany
      rw [List.any_eq_true] at hany
      obtain ⟨e, he, heq⟩ := hany
      rw [decide_eq_true_eq] at heq
      exact hfresh d (List.mem_cons_self _ _)
        (heq ▸ List.mem_map_of_mem Doc.id he)
    have hstep : storeBatch db (d :: rest) = storeBatch (db ++ [d]) rest := by
      simp [storeBatch, List.foldl_cons, hup]
    rw [hstep, ih (db ++ [d]) ?fresh ?nodup]
    · simp
    case fresh =>
      intro e he
      simp only [List.map_append, List.mem_append, List.map_cons]
      rintro (hmem | hmem)
      · exact hfresh e (List.mem_cons_of_mem _ he) hmem
      · simp only [List.map_nil, List.mem_singleton] at hmem
        rw [List.map_cons, List.nodup_cons] at hnodup
        exact hnodup.1 (hmem ▸ List.mem_map_of_mem Doc.id he)
    case nodup =>
      rw [List.map_cons, List.nodup_cons] at hnodup
      exact hnodup.2

/-- **C8.** Re-indexing the same unchanged scripts a second time consumes
fresh tokens, so the two runs' document-id sets are disjoint and the
upserts append instead of overwriting: after the second run the store holds
exactly twice as many documents — `indexProject` composed with itself is
not idempotent in stored-document count.  The hypotheses state what the
`nanoid()` supply guarantees: 21-character tokens that never repeat. -/
theorem indexScripts_rerun_not_idempotent (supply : Nat → Str)
    (scripts : List UnityScript)
    (hlen : ∀ t, t < 2 * totalChunks scripts → (supply t).length = 21)
    (hinj : ∀ t1, t1 < 2 * totalChunks scripts →
      ∀ t2, t2 < 2 * totalChunks scripts → t1 ≠ t2 → supply t1 ≠ supply t2) :
    (∀ d1 ∈ (indexScriptsLoop supply 0 scripts).docs,
     ∀ d2 ∈ (indexScriptsLoop supply
        (indexScriptsLoop supply 0 scripts).nextToken scripts).docs,
       d1.id ≠ d2.id) ∧
    (storeBatch (storeBatch [] (indexScriptsLoop supply 0 scripts).docs)
        (indexScriptsLoop supply
          (indexScriptsLoop supply 0 scripts).nextToken scripts).docs).length
      = 2 * (indexScriptsLoop supply 0 scripts).docs.length := by
  set T := totalChunks scripts with hT
  have hnext : (indexScriptsLoop supply 0 scripts).nextToken = T := by
    rw [indexScriptsLoop_nextToken]; omega
  have hdisj : ∀ d1 ∈ (indexScriptsLoop supply 0 scripts).docs,
      ∀ d2 ∈ (indexScriptsLoop supply
        (indexScriptsLoop supply 0 scripts).nextToken scripts).docs,
        d1.id ≠ d2.id := by
    intro d1 hd1 d2 hd2
    obtain ⟨t1, _, ht1b, n1, i1, hid1⟩ :=
      indexScriptsLoop_mem supply scripts 0 d1 hd1
    rw [hnext] at hd2
    obtain ⟨t2, ht2a, ht2b, n2, i2, hid2⟩ :=
      indexScriptsLoop_mem supply scripts T d2 hd2
    intro heq
    rw [hid1, hid2] at heq
    have hb1 : t1 < 2 * T := by omega
    have hb2 : t2 < 2 * T := by omega
    exact hinj t1 hb1 t2 hb2 (by omega)
      (mkChunkId_token_eq ((hlen _ hb1).trans (hlen _ hb2).symm) heq)
  refine ⟨hdisj, ?_⟩
  have hnodup1 : ((indexScriptsLoop supply 0 scripts).docs.map Doc.id).Nodup :=
    indexScriptsLoop_ids_nodup supply (2 * T) hlen hinj scripts 0 (by omega)
  have hnodup2 : ((indexScriptsLoop supply
      (indexScriptsLoop supply 0 scripts).nextToken scripts).docs.map Doc.id).Nodup := by
    rw [hnext]
    exact indexScriptsLoop_ids_nodup supply (2 * T) hlen hinj scripts T (by omega)
  have hids1 : (storeBatch [] (indexScriptsLoop supply 0 scripts).docs).map Doc.id
      = (indexScriptsLoop supply 0 scripts).docs.map Doc.id := by
    have := storeBatch_ids_of_fresh (indexScriptsLoop supply 0 scripts).docs []
      (by simp) hnodup1
    simpa using this
  have hids2 := storeBatch_ids_of_fresh
    (indexScriptsLoop supply
      (indexScriptsLoop supply 0 scripts).nextToken scripts).docs
    (storeBatch [] (indexScriptsLoop supply 0 scripts).docs)
    (by
      intro d hd
      rw [hids1]
      intro hmem
      obtain ⟨e, he, hide⟩ := List.mem_map.mp hmem
      exact hdisj e he d hd hide)
    hnodup2
  have hlen1 : (storeBatch [] (indexScriptsLoop supply 0 scripts).docs).length
      = (indexScriptsLoop supply 0 scripts).docs.length := by
    have := congrArg List.length hids1
    simpa using this
  have hlen2 := congrArg List.length hids2
  simp only [List.length_append, List.length_map] at hlen2
  have hrunlen : (indexScriptsLoop supply
      (indexScriptsLoop supply 0 scripts).nextToken scripts).docs.length
      = (indexScriptsLoop supply 0 scripts).docs.length := by
    rw [indexScriptsLoop_docs_length, indexScriptsLoop_docs_length]
  omega

def c8Supply : Nat → Str :=
  fun i => if i = 0 then List.replicate 21 'A' else List.replicate 21 'B'

def c8Scripts : List UnityScript :=
  [{ path := ("/p/Assets/Scripts/A.cs").toList
     name := ("A.cs").toList
     content := ("class C").toList }]

/-- Witness for C8 at a concrete one-script project whose two runs use the
distinct 21-character tokens `A…A` and `B…B`. -/
theorem indexScripts_rerun_not_idempotent_witness :
    (∀ d1 ∈ (indexScriptsLoop c8Supply 0 c8Scripts).docs,
     ∀ d2 ∈ (indexScriptsLoop c8Supply
        (indexScriptsLoop c8Supply 0 c8Scripts).nextToken c8Scripts).docs,
       d1.id ≠ d2.id) ∧
    (storeBatch (storeBatch [] (indexScriptsLoop c8Supply 0 c8Scripts).docs)
        (indexScriptsLoop c8Supply
          (indexScriptsLoop c8Supply 0 c8Scripts).nextToken c8Scripts).docs).length
      = 2 * (indexScriptsLoop c8Supply 0 c8Scripts).docs.length :=
  indexScripts_rerun_not_idempotent c8Supply c8Scripts
    (by decide) (by decide)

/-! ## Code style analyzer (`CodeStyleAnalyzer`, QUICK_START.md 967-1360).
Global regex scans (`matchAll` / counting `match(..g)` / `replace(..g)`) are
modelled by a fuel-bounded scanner that, at each position, either consumes a
match and resumes after it, or advances one character.  All regexes used
pair character classes that are disjoint from their neighbours, so greedy
maximal-run matching agrees with the backtracking regex semantics. -/

/-- Scan for all non-overlapping matches, left to right.  The matcher
returns the match length and a captured payload.  Fuel is the string
length; every step consumes at least one character (all matchers used
return positive lengths). -/
def scanMatches {α : Type} (m : Str → Option (Nat × α)) : Nat → Str → List α
  | 0, _ => []
  | _, [] => []
  | fuel + 1, c :: rest =>
    match m (c :: rest) with
    | some (len, a) => a :: scanMatches m fuel ((c :: rest).drop (max len 1))
    | none => scanMatches m fuel rest

/-- Like `scanMatches`, but for `String.prototype.replace(re, repl)` with a
global regex: emit the replacement for a match, copy the character
otherwise. -/
def replaceScan (m : Str → Option (Nat × Str)) : Nat → Str → Str
  | 0, s => s
  | _, [] => []
  | fuel + 1, c :: rest =>
    match m (c :: rest) with
    | some (len, repl) => repl ++ replaceScan m fuel ((c :: rest).drop (max len 1))
    | none => c :: replaceScan m fuel rest

def replaceAll (m : Str → Option (Nat × Str)) (s : Str) : Str :=
  replaceScan m s.length s

/-- ASCII alphanumeric (`[a-zA-Z0-9]`). -/
def isAlnumAscii (c : Char) : Bool :=
  ('a' ≤ c && c ≤ 'z') || ('A' ≤ c && c ≤ 'Z') || ('0' ≤ c && c ≤ '9')

/-- `/^[A-Z][a-zA-Z0-9]*$/`. -/
def isPascalCase : Str → Bool
  | [] => false
  | c :: rest => ('A' ≤ c && c ≤ 'Z') && rest.all isAlnumAscii

/-- `/^[a-z][a-zA-Z0-9]*$/`. -/
def isCamelCase : Str → Bool
  | [] => false
  | c :: rest => ('a' ≤ c && c ≤ 'z') && rest.all isAlnumAscii

/-- `/^_[a-z][a-zA-Z0-9]*$/`. -/
def isUnderscoreCase : Str → Bool
  | '_' :: c :: rest => ('a' ≤ c && c ≤ 'z') && rest.all isAlnumAscii
  | _ => false

/-- `/^[A-Z]/`. -/
def startsUpper : Str → Bool
  | c :: _ => 'A' ≤ c && c ≤ 'Z'
  | [] => false

/-- `/^[a-z]/`. -/
def startsLower : Str → Bool
  | c :: _ => 'a' ≤ c && c ≤ 'z'
  | [] => false

/-- `name.startsWith('_')`. -/
def startsUnderscore : Str → Bool
  | '_' :: _ => true
  | _ => false

/-- Matcher for `class\s+(\w+)`: literal, whitespace run, captured word. -/
def matchClassName (s : Str) : Option (Nat × Str) :=
  match dropLit kwClass s with
  | none => none
  | some r1 =>
    let ws := r1.takeWhile isWsChar
    if ws.isEmpty then none
    else
      let r2 := r1.drop ws.length
      let w := r2.takeWhile isWordChar
      if w.isEmpty then none
      else some (5 + ws.length + w.length, w)

/-- The access-modifier alternation, returning the keyword length and the
rest (the three literals are mutually exclusive at any position). -/
def accessKeywordSplit (s : Str) : Option (Nat × Str) :=
  match dropLit kwPublic s with
  | some r => some (6, r)
  | none =>
    match dropLit kwPrivate s with
    | some r => some (7, r)
    | none =>
      match dropLit kwProtected s with
      | some r => some (9, r)
      | none => none

/-- Matcher for `(?:public|private|protected)\s+\w+\s+(\w+)\s*\(` capturing
the method name. -/
def matchMethodName (s : Str) : Option (Nat × Str) :=
  match accessKeywordSplit s with
  | none => none
  | some (klen, r1) =>
    let ws1 := r1.takeWhile isWsChar
    if ws1.isEmpty then none else
    let r2 := r1.drop ws1.length
    let w1 := r2.takeWhile isWordChar
    if w1.isEmpty then none else
    let r3 := r2.drop w1.length
    let ws2 := r3.takeWhile isWsChar
    if ws2.isEmpty then none else
    let r4 := r3.drop ws2.length
    let w2 := r4.takeWhile isWordChar
    if w2.isEmpty then none else
    let r5 := r4.drop w2.length
    let ws3 := r5.takeWhile isWsChar
    match r5.drop ws3.length with
    | '(' :: _ =>
      some (klen + ws1.length + w1.length + ws2.length + w2.length + ws3.length + 1, w2)
    | _ => none

/-- Matcher for `(?:private|public|protected)\s+\w+\s+(\w+)\s*[;=]`
capturing the variable name. -/
def matchVarName (s : Str) : Option (Nat × Str) :=
  match accessKeywordSplit s with
  | none => none
  | some (klen, r1) =>
    let ws1 := r1.takeWhile isWsChar
    if ws1.isEmpty then none else
    let r2 := r1.drop ws1.length
    let w1 := r2.takeWhile isWordChar
    if w1.isEmpty then none else
    let r3 := r2.drop w1.length
    let ws2 := r3.takeWhile isWsChar
    if ws2.isEmpty then none else
    let r4 := r3.drop ws2.length
    let w2 := r4.takeWhile isWordChar
    if w2.isEmpty then none else
    let r5 := r4.drop w2.length
    let ws3 := r5.takeWhile isWsChar
    match r5.drop ws3.length with
    | ';' :: _ =>
      some (klen + ws1.length + w1.length + ws2.length + w2.length + ws3.length + 1, w2)
    | '=' :: _ =>
      some (klen + ws1.length + w1.length + ws2.length + w2.length + ws3.length + 1, w2)
    | _ => none

inductive PatternKind
  | naming
  | formatting
  | architecture
  | component
deriving DecidableEq

structure CodePattern where
  type : PatternKind
  pattern : Str
  frequency : Nat
  confidence : ℚ
  examples : List Str

structure CodeStyleProfile where
  patterns : List CodePattern
  lastAnalyzed : Nat
  fileCount : Nat
  confidence : ℚ

def classNamesOf (scripts : List Str) : List Str :=
  scripts.foldl (fun acc script => acc ++ scanMatches matchClassName script.length script) []

def methodNamesOf (scripts : List Str) : List Str :=
  scripts.foldl (fun acc script => acc ++ scanMatches matchMethodName script.length script) []

def variableNamesOf (scripts : List Str) : List Str :=
  scripts.foldl (fun acc script => acc ++ scanMatches matchVarName script.length script) []

def underscorePatternName : Str := ("Underscore prefix for private fields").toList

/-- The class-naming block of `analyzeNaming` (QUICK_START.md 1037-1051). -/
def namingFromClasses (classNames : List Str) : List CodePattern :=
  if 0 < classNames.length then
    if 80 < (((classNames.filter isPascalCase).length : ℚ) / (classNames.length : ℚ)) * 100 then
      [{ type := PatternKind.naming
         pattern := ("PascalCase for classes").toList
         frequency := (classNames.filter isPascalCase).length
         confidence := (((classNames.filter isPascalCase).length : ℚ) / (classNames.length : ℚ)) * 100 / 100
         examples := classNames.take 3 }]
    else []
  else []

/-- The method-naming block of `analyzeNaming` (lines 1062-1083). -/
def namingFromMethods (methodNames : List Str) : List CodePattern :=
  if 0 < methodNames.length then
    if (methodNames.filter isCamelCase).length < (methodNames.filter isPascalCase).length then
      [{ type := PatternKind.naming
         pattern := ("PascalCase for methods").toList
         frequency := (methodNames.filter isPascalCase).length
         confidence := ((methodNames.filter isPascalCase).length : ℚ) / (methodNames.length : ℚ)
         examples := (methodNames.filter startsUpper).take 3 }]
    else if (methodNames.filter isPascalCase).length < (methodNames.filter isCamelCase).length then
      [{ type := PatternKind.naming
         pattern := ("camelCase for methods").toList
         frequency := (methodNames.filter isCamelCase).length
         confidence := ((methodNames.filter isCamelCase).length : ℚ) / (methodNames.length : ℚ)
         examples := (methodNames.filter startsLower).take 3 }]
    else []
  else []

/-- The variable-naming block of `analyzeNaming` (lines 1094-1107): the
underscore pattern is emitted when `underscore > camelCase * 0.5`. -/
def namingFromVars (variableNames : List Str) : List CodePattern :=
  if 0 < variableNames.length then
    if ((variableNames.filter isCamelCase).length : ℚ) * 0.5
        < ((variableNames.filter isUnderscoreCase).length : ℚ) then
      [{ type := PatternKind.naming
         pattern := underscorePatternName
         frequency := (variableNames.filter isUnderscoreCase).length
         confidence := ((variableNames.filter isUnderscoreCase).length : ℚ) / (variableNames.length : ℚ)
         examples := (variableNames.filter startsUnderscore).take 3 }]
    else []
  else []

/-- `CodeStyleAnalyzer.analyzeNaming`. -/
def analyzeNaming (scripts : List Str) : List CodePattern :=
  namingFromClasses (classNamesOf scripts)
    ++ namingFromMethods (methodNamesOf scripts)
    ++ namingFromVars (variableNamesOf scripts)

/-- Matcher for the "same-line brace" regex `\)\s*{`.  `\s` matches
newlines, so this matches EVERY `)…{` placement whose interior is
whitespace, new-line placements included. -/
def matchSameLineBrace (s : Str) : Option (Nat × Unit) :=
  match s with
  | ')' :: rest =>
    let ws := rest.takeWhile isWsChar
    match rest.drop ws.length with
    | '{' :: _ => some (2 + ws.length, ())
    | _ => none
  | _ => none

/-- Matcher for the "new-line brace" regex `\)\s*\n\s*{`: as above but with
at least one newline among the whitespace. -/
def matchNewLineBrace (s : Str) : Option (Nat × Unit) :=
  match s with
  | ')' :: rest =>
    let ws := rest.takeWhile isWsChar
    if ws.contains '\n' then
      match rest.drop ws.length with
      | '{' :: _ => some (2 + ws.length, ())
      | _ => none
    else none
  | _ => none

def countSameLineBraces (s : Str) : Nat :=
  (scanMatches matchSameLineBrace s.length s).length

def countNewLineBraces (s : Str) : Nat :=
  (scanMatches matchNewLineBrace s.length s).length

/-- Leading-whitespace run lengths of all indented lines (`^(\s+)` per
line). -/
def leadingWsLens (scripts : List Str) : List Nat :=
  scripts.foldl
    (fun acc script =>
      acc ++ (splitOnChar '\n' script).filterMap
        (fun line =>
          let lead := line.takeWhile isWsChar
          if lead.isEmpty then none else some lead.length))
    []

/-- `CodeStyleAnalyzer.findMostCommon`: running frequency map (updates are
modelled by prepending, since lookup returns the first hit), tracking the
first value to reach each new maximum. -/
def findMostCommonLoop : List Nat → List (Nat × Nat) → Nat → Nat → Nat
  | [], _, _, mostCommon => mostCommon
  | v :: rest, freqMap, maxFreq, mostCommon =>
    let f := ((freqMap.lookup v).getD 0) + 1
    if maxFreq < f then findMostCommonLoop rest ((v, f) :: freqMap) f v
    else findMostCommonLoop rest ((v, f) :: freqMap) maxFreq mostCommon

def findMostCommon (arr : List Nat) : Nat :=
  findMostCommonLoop arr [] 0 0

/-- `CodeStyleAnalyzer.analyzeFormatting`: the brace-style block followed by
the indentation block. -/
def analyzeFormatting (scripts : List Str) : List CodePattern :=
  (let sameLine := scripts.foldl (fun a s => a + countSameLineBraces s) 0
   let newLine := scripts.foldl (fun a s => a + countNewLineBraces s) 0
   if newLine < sameLine then
     [{ type := PatternKind.formatting
        pattern := ("Same-line braces").toList
        frequency := sameLine
        confidence := (sameLine : ℚ) / ((sameLine : ℚ) + (newLine : ℚ))
        examples := [("method() \x7b").toList, ("if (condition) \x7b").toList] }]
   else if sameLine < newLine then
     [{ type := PatternKind.formatting
        pattern := ("New-line braces").toList
        frequency := newLine
        confidence := (newLine : ℚ) / ((sameLine : ℚ) + (newLine : ℚ))
        examples := [("method()\\n\x7b").toList, ("if (condition)\\n\x7b").toList] }]
   else [])
  ++
  (let sizes := leadingWsLens scripts
   if 0 < sizes.length then
     let mostCommon := findMostCommon sizes
     [{ type := PatternKind.formatting
        pattern := natToStr mostCommon ++ ("-space indentation").toList
        frequency := (sizes.filter (fun n => decide (n = mostCommon))).length
        confidence := (0.9 : ℚ)
        examples := [List.replicate mostCommon ' ' ++ ("code").toList] }]
   else [])

/-! ### `CodeStyleAnalyzer.applyStyle` (QUICK_START.md 1264-1298) -/

def underscoreTriggerStr : Str := ("underscore prefix").toList
def newLineTriggerStr : Str := ("new-line braces").toList
def sameLineTriggerStr : Str := ("same-line braces").toList
def indentTriggerStr : Str := ("indentation").toList

/-- Matcher-with-replacement for
`.replace(/private\s+(\w+)\s+([a-z]\w+)/g, "private ${type} _${name}")`. -/
def matchPrivateFieldRewrite (s : Str) : Option (Nat × Str) :=
  match dropLit kwPrivate s with
  | none => none
  | some r1 =>
    let ws1 := r1.takeWhile isWsChar
    if ws1.isEmpty then none else
    let r2 := r1.drop ws1.length
    let ty := r2.takeWhile isWordChar
    if ty.isEmpty then none else
    let r3 := r2.drop ty.length
    let ws2 := r3.takeWhile isWsChar
    if ws2.isEmpty then none else
    match r3.drop ws2.length with
    | c :: r5 =>
      if 'a' ≤ c && c ≤ 'z' then
        if (r5.takeWhile isWordChar).isEmpty then none
        else some
          (7 + ws1.length + ty.length + ws2.length + 1 + (r5.takeWhile isWordChar).length,
           ("private ").toList ++ ty ++ (" _").toList ++ (c :: r5.takeWhile isWordChar))
      else none
    | [] => none

def applyUnderscoreRewrite (s : Str) : Str :=
  replaceAll matchPrivateFieldRewrite s

/-- `.replace(/\)\s*{/g, ')\n{')`. -/
def toNewLineBraces (s : Str) : Str :=
  replaceAll (fun t => (matchSameLineBrace t).map (fun p => (p.1, (")\n\x7b").toList))) s

/-- `.replace(/\)\s*\n\s*{/g, ') {')`. -/
def toSameLineBraces (s : Str) : Str :=
  replaceAll (fun t => (matchNewLineBrace t).map (fun p => (p.1, (") \x7b").toList))) s

/-- First digit run in a pattern name (`pattern.match(/\d+/)?.[0]`). -/
def firstDigitRun : Str → Option Str
  | [] => none
  | c :: rest =>
    if '0' ≤ c && c ≤ '9' then
      some ((c :: rest).takeWhile (fun d => '0' ≤ d && d ≤ '9'))
    else firstDigitRun rest

def digitsToNat (ds : Str) : Nat :=
  ds.foldl (fun n d => n * 10 + (d.toNat - 48)) 0

/-- `parseInt(pattern.pattern.match(/\d+/)?.[0] || '4')`. -/
def parseIndentWidth (p : Str) : Nat :=
  match firstDigitRun p with
  | none => 4
  | some ds => digitsToNat ds

/-- `CodeStyleAnalyzer.applyStyle`: the naming pass (trigger substring
`"underscore prefix"`, case-sensitive `String.prototype.includes`) followed
by the formatting pass (triggers `"new-line braces"`, `"same-line braces"`,
`"indentation"`). -/
def applyStyle (code : Str) (styleProfile : CodeStyleProfile) : Str :=
  (styleProfile.patterns.filter (fun p => decide (p.type = PatternKind.formatting))).foldl
    (fun acc p =>
      let acc1 :=
        if includesStr p.pattern newLineTriggerStr then toNewLineBraces acc
        else if includesStr p.pattern sameLineTriggerStr then toSameLineBraces acc
        else acc
      if includesStr p.pattern indentTriggerStr then
        reindent acc1 (parseIndentWidth p.pattern)
      else acc1)
    ((styleProfile.patterns.filter (fun p => decide (p.type = PatternKind.naming))).foldl
      (fun acc p =>
        if includesStr p.pattern underscoreTriggerStr then applyUnderscoreRewrite acc
        else acc)
      code)

theorem namingFold_noop : ∀ (l : List CodePattern) (acc : Str),
    (∀ p ∈ l, includesStr p.pattern underscoreTriggerStr = false) →
    (l.foldl (fun acc p =>
        if includesStr p.pattern underscoreTriggerStr then applyUnderscoreRewrite acc
        else acc) acc) = acc := by
  intro l
  induction l with
  | nil => intro acc _; rfl
  | cons p rest ih =>
    intro acc h
    have hp := h p (List.mem_cons_self _ _)
    rw [List.foldl_cons, if_neg (by rw [hp]; simp)]
    exact ih acc (fun q hq => h q (List.mem_cons_of_mem _ hq))

theorem formattingFold_noop : ∀ (l : List CodePattern) (acc : Str),
    (∀ p ∈ l, includesStr p.pattern newLineTriggerStr = false ∧
      includesStr p.pattern sameLineTriggerStr = false ∧
      includesStr p.pattern indentTriggerStr = false) →
    (l.foldl (fun acc p =>
        let acc1 :=
          if includesStr p.pattern newLineTriggerStr then toNewLineBraces acc
          else if includesStr p.pattern sameLineTriggerStr then toSameLineBraces acc
          else acc
        if includesStr p.pattern indentTriggerStr then
          reindent acc1 (parseIndentWidth p.pattern)
        else acc1) acc) = acc := by
  intro l
  induction l with
  | nil => intro acc _; rfl
  | cons p rest ih =>
    intro acc h
    obtain ⟨hn, hs, hi⟩ := h p (List.mem_cons_self _ _)
    rw [List.foldl_cons]
    have hbody : (let acc1 :=
        if includesStr p.pattern newLineTriggerStr then toNewLineBraces acc
        else if includesStr p.pattern sameLineTriggerStr then toSameLineBraces acc
        else acc
      if includesStr p.pattern indentTriggerStr then
        reindent acc1 (parseIndentWidth p.pattern)
      else acc1) = acc := by
      show (if includesStr p.pattern indentTriggerStr then
          reindent (if includesStr p.pattern newLineTriggerStr then toNewLineBraces acc
            else if includesStr p.pattern sameLineTriggerStr then toSameLineBraces acc
            else acc) (parseIndentWidth p.pattern)
        else (if includesStr p.pattern newLineTriggerStr then toNewLineBraces acc
          else if includesStr p.pattern sameLineTriggerStr then toSameLineBraces acc
          else acc)) = acc
      rw [if_neg (by rw [hi]; simp), if_neg (by rw [hn]; simp),
        if_neg (by rw [hs]; simp)]
    rw [hbody]
    exact ih acc (fun q hq => h q (List.mem_cons_of_mem _ hq))

/-- If no pattern name in the profile contains any of the four trigger
substrings, `applyStyle` is the identity. -/
theorem applyStyle_no_triggers (code : Str) (profile : CodeStyleProfile)
    (h : ∀ p ∈ profile.patterns,
      includesStr p.pattern underscoreTriggerStr = false ∧
      includesStr p.pattern newLineTriggerStr = false ∧
      includesStr p.pattern sameLineTriggerStr = false ∧
      includesStr p.pattern indentTriggerStr = false) :
    applyStyle code profile = code := by
  unfold applyStyle
  rw [namingFold_noop _ code (fun p hp => (h p (List.mem_of_mem_filter hp)).1)]
  exact formattingFold_noop _ code (fun p hp =>
    ⟨(h p (List.mem_of_mem_filter hp)).2.1,
     (h p (List.mem_of_mem_filter hp)).2.2.1,
     (h p (List.mem_of_mem_filter hp)).2.2.2⟩)

theorem namingFromClasses_pattern (ns : List Str) :
    ∀ p ∈ namingFromClasses ns, p.pattern = ("PascalCase for classes").toList := by
  intro p hp
  unfold namingFromClasses at hp
  split at hp
  · split at hp
    · rw [List.mem_singleton.mp hp]
    · simp at hp
  · simp at hp

theorem namingFromMethods_pattern (ns : List Str) :
    ∀ p ∈ namingFromMethods ns,
      p.pattern = ("PascalCase for methods").toList ∨
      p.pattern = ("camelCase for methods").toList := by
  intro p hp
  unfold namingFromMethods at hp
  split at hp
  · split at hp
    · exact Or.inl (by rw [List.mem_singleton.mp hp])
    · split at hp
      · exact Or.inr (by rw [List.mem_singleton.mp hp])
      · simp at hp
  · simp at hp

theorem namingFromVars_pattern (ns : List Str) :
    ∀ p ∈ namingFromVars ns, p.pattern = underscorePatternName := by
  intro p hp
  unfold namingFromVars at hp
  split at hp
  · split at hp
    · rw [List.mem_singleton.mp hp]
    · simp at hp
  · simp at hp

/-! ### C4 and C9: the two style-analyzer slips, evaluated on the code -/

def c4Corpus : Str := ("void f()\n\x7b\x7d").toList

def c4Mixed : Str :=
  ("void f()\n\x7b\x7d void g()\n\x7b\x7d void h() \x7b\x7d").toList

/-- **C4.** The brace-style counters do not implement majority voting: the
"same-line" regex `\)\s*{` also matches new-line placements (`\s` matches
newlines), so `sameLine` counts every placement and `newLine > sameLine`
never holds.  On a corpus whose single placement is new-line (100%
majority), both counters are 1 and NO brace pattern is emitted — the claim
expects a 'New-line braces' pattern.  On a majority-new-line corpus with one
same-line placement (2 of 3 new-line), the analyzer even emits 'Same-line
braces'. -/
theorem analyzeFormatting_newline_majority :
    countSameLineBraces c4Corpus = 1 ∧
    countNewLineBraces c4Corpus = 1 ∧
    analyzeFormatting [c4Corpus] = [] ∧
    countSameLineBraces c4Mixed = 3 ∧
    countNewLineBraces c4Mixed = 2 ∧
    (analyzeFormatting [c4Mixed]).map (fun p => p.pattern)
      = [("Same-line braces").toList] :=
  ⟨rfl, rfl, rfl, rfl, rfl, rfl⟩

def c9Corpus : Str := ("class Foo \x7b private int _health; \x7d").toList

def c9Code : Str := ("private int health;").toList

theorem c9_varNames : variableNamesOf [c9Corpus] = [("_health").toList] := rfl

theorem c9_underscore_mem :
    underscorePatternName
      ∈ (namingFromVars [("_health").toList]).map (fun p => p.pattern) := by
  have hc2 : ((([("_health").toList].filter isCamelCase).length : ℚ) * 0.5
      < (([("_health").toList].filter isUnderscoreCase).length : ℚ)) := by
    have e1 : ([("_health").toList].filter isCamelCase).length = 0 := rfl
    have e2 : ([("_health").toList].filter isUnderscoreCase).length = 1 := rfl
    rw [e1, e2]; norm_num
  unfold namingFromVars
  rw [if_pos (by simp), if_pos hc2]
  simp

/-- **C9.** The analyzer's own naming pass labels the underscore pattern
`"Underscore prefix for private fields"` (capital U), but `applyStyle`
looks for the case-sensitive substring `"underscore prefix"` — which never
occurs in any pattern name the naming pass can produce — so the underscore
rewrite never fires on an analyzer-produced profile: `applyStyle` leaves
`"private int health;"` unchanged even though the profile contains the
underscore pattern.  The last conjunct shows the rewrite the claim expects,
had the trigger matched. -/
theorem applyStyle_underscore_trigger_dead :
    underscorePatternName ∈ (analyzeNaming [c9Corpus]).map (fun p => p.pattern) ∧
    applyStyle c9Code
      { patterns := analyzeNaming [c9Corpus], lastAnalyzed := 0,
        fileCount := 1, confidence := 0 }
      = c9Code ∧
    applyUnderscoreRewrite c9Code = ("private int _health;").toList := by
  have hnames : ∀ p ∈ analyzeNaming [c9Corpus],
      p.pattern = ("PascalCase for classes").toList ∨
      p.pattern = ("PascalCase for methods").toList ∨
      p.pattern = ("camelCase for methods").toList ∨
      p.pattern = underscorePatternName := by
    intro p hp
    unfold analyzeNaming at hp
    rcases List.mem_append.mp hp with hp' | hp'
    · rcases List.mem_append.mp hp' with hp'' | hp''
      · exact Or.inl (namingFromClasses_pattern _ p hp'')
      · rcases namingFromMethods_pattern _ p hp'' with h | h
        · exact Or.inr (Or.inl h)
        · exact Or.inr (Or.inr (Or.inl h))
    · exact Or.inr (Or.inr (Or.inr (namingFromVars_pattern _ p hp')))
  refine ⟨?_, ?_, rfl⟩
  · unfold analyzeNaming
    rw [c9_varNames, List.map_append]
    exact List.mem_append.mpr (Or.inr c9_underscore_mem)
  · refine applyStyle_no_triggers c9Code _ ?_
    intro p hp
    rcases hnames p hp with h | h | h | h <;> rw [h] <;>
      exact ⟨by decide, by decide, by decide, by decide⟩

end UnityAssistant
